import Mathlib

/-!
Verification of the retrieval core of the IIIT_HACKATHON repository
(`backend/app/services/rag_service.py`, with twins in `src/utils.py`,
`src/rag_pipeline.py`, `src/vector_store.py`).

Strings are modelled as `List Char` (Python strings are sequences of code
points).  Python's `str.strip()` is modelled over the ASCII whitespace
characters it removes; `str.upper()` is modelled on ASCII letters, which is
all the section machinery ever produces.
-/

namespace Rag

/-- The whitespace class used by Python's `str.strip()` and by `\s` in the
header regular expressions (ASCII part). -/
def pyIsSpace (c : Char) : Bool :=
  c = ' ' ∨ c = '\t' ∨ c = '\n' ∨ c = '\x0d' ∨ c = '\x0b' ∨ c = '\x0c'

/-- Python `str.strip()`: drop whitespace from both ends. -/
def strip (s : List Char) : List Char :=
  ((s.dropWhile pyIsSpace).reverse.dropWhile pyIsSpace).reverse

/-- Python `str.upper()` on one character (ASCII). -/
def pyToUpper (c : Char) : Char :=
  match c with
  | 'a' => 'A' | 'b' => 'B' | 'c' => 'C' | 'd' => 'D' | 'e' => 'E'
  | 'f' => 'F' | 'g' => 'G' | 'h' => 'H' | 'i' => 'I' | 'j' => 'J'
  | 'k' => 'K' | 'l' => 'L' | 'm' => 'M' | 'n' => 'N' | 'o' => 'O'
  | 'p' => 'P' | 'q' => 'Q' | 'r' => 'R' | 's' => 'S' | 't' => 'T'
  | 'u' => 'U' | 'v' => 'V' | 'w' => 'W' | 'x' => 'X' | 'y' => 'Y'
  | 'z' => 'Z'
  | other => other

/-- Python `str.upper()` on a string. -/
def toUpperL (s : List Char) : List Char := s.map pyToUpper

/-- The loop body of `chunk_text`: one window per iteration.
`text[start:end].strip()` with `end = min(start + max_chars, n)`.
Models the `while start < n` loop for `max_chars ≥ 1` (the guard
`0 < maxc` makes the Lean recursion well-founded; for `max_chars ≤ 0` the
Python loop never exits, which is proved separately via `chunkLoopStart`). -/
def chunkGo (maxc : Nat) (text : List Char) (start : Nat) : List (List Char) :=
  if h : start < text.length ∧ 0 < maxc then
    let stop := min (start + maxc) text.length
    strip ((text.take stop).drop start) :: chunkGo maxc text stop
  else
    []
termination_by text.length - start
decreasing_by
  have h1 : start < min (start + maxc) text.length := by
    exact lt_min (by omega) h.1
  omega

/-- `chunk_text(text, max_chars)`: strip the text, then emit consecutive
windows of at most `max_chars` characters, each stripped. -/
def chunk_text (text : List Char) (maxc : Nat) : List (List Char) :=
  chunkGo maxc (strip text) 0

/-- The value of the Python variable `start` after `k` iterations of the
`chunk_text` loop `while start < n: start = min(start + max_chars, n)`,
for an arbitrary (possibly non-positive) `max_chars : Int`. -/
def chunkLoopStart (maxc n : Int) : Nat → Int
  | 0 => 0
  | k + 1 => min (chunkLoopStart maxc n k + maxc) n

/-- The `chunk_text` loop terminates on `text` with chunk size `maxc` iff the
guard `start < n` eventually fails, where `n` is the length of the stripped
text. -/
def chunkLoopTerminates (text : List Char) (maxc : Int) : Prop :=
  ∃ k : Nat, ((strip text).length : Int) ≤ chunkLoopStart maxc (strip text).length k

/-! ## Sectionizer

`split_into_sections` does `re.split("(" + "|".join(SECTION_HEADERS) + ")",
text, flags=re.IGNORECASE)`.  Each alternative of the pattern is a literal
header followed by `[:\s]*`.  The model below implements exactly that
fragment of `re`: scan left to right for the first position where some
alternative matches (alternatives tried in list order, `[:\s]*` greedy),
split there, and continue after the match. -/

/-- The literal parts of `SECTION_HEADERS`, in source order. -/
def headerLits : List (List Char) :=
  [ "HISTORY OF PRESENT ILLNESS".toList
  , "HPI".toList
  , "PAST MEDICAL HISTORY".toList
  , "MEDICAL HISTORY".toList
  , "PHYSICAL EXAMINATION".toList
  , "PHYSICAL EXAM".toList
  , "ASSESSMENT".toList
  , "PLAN".toList
  , "LABORATORY".toList
  , "LABS".toList
  , "IMAGING".toList
  , "MEDICATIONS".toList
  , "ALLERGIES".toList
  , "ROS".toList ]

/-- Match a literal case-insensitively at the head of `s`; return the consumed
input characters and the rest. -/
def litMatch : List Char → List Char → Option (List Char × List Char)
  | [], s => some ([], s)
  | _ :: _, [] => none
  | a :: h, c :: s =>
      if pyToUpper c = a then
        (litMatch h s).map (fun pr => (c :: pr.1, pr.2))
      else
        none

/-- Greedily consume `[:\s]*`: colons and whitespace. -/
def consumeTail : List Char → List Char × List Char
  | [] => ([], [])
  | c :: s =>
      if c = ':' ∨ pyIsSpace c then
        let pr := consumeTail s
        (c :: pr.1, pr.2)
      else
        ([], c :: s)

/-- Try the header alternatives in order at the head of `s`; on success return
the matched text and the rest. -/
def matchHereGo : List (List Char) → List Char → Option (List Char × List Char)
  | [], _ => none
  | h :: hs, s =>
      match litMatch h s with
      | some (co, r) =>
          let pr := consumeTail r
          some (co ++ pr.1, pr.2)
      | none => matchHereGo hs s

/-- A header-pattern match at the head of `s`. -/
def matchHere (s : List Char) : Option (List Char × List Char) :=
  matchHereGo headerLits s

/-- Find the leftmost header-pattern match in `s`: returns
`(prefix, match, rest)` with `s = prefix ++ match ++ rest`. -/
def findMatch : List Char → Option (List Char × List Char × List Char)
  | [] => none
  | c :: rest =>
      match matchHere (c :: rest) with
      | some (m, r) => some ([], m, r)
      | none => (findMatch rest).map (fun pr => (c :: pr.1, pr.2.1, pr.2.2))

/-- `re.split` with one capturing group: alternating unmatched and matched
segments.  `fuel` bounds the number of matches; `reSplitParts` supplies
`text.length`, which is enough because every match is non-empty. -/
def reSplitGo : Nat → List Char → List (List Char)
  | 0, text => [text]
  | fuel + 1, text =>
      match findMatch text with
      | none => [text]
      | some (p, m, r) => p :: m :: reSplitGo fuel r

/-- `re.split(pattern, text, flags=re.IGNORECASE)` with the header pattern. -/
def reSplitParts (text : List Char) : List (List Char) :=
  reSplitGo text.length text

/-- One section: `{"section": label, "body": body}`. -/
structure Section where
  label : List Char
  body : List Char
deriving DecidableEq, Repr

/-- The sentinel label. -/
def UNLABELED : List Char := "UNLABELED".toList

/-- The `while i < len(parts)` loop of `split_into_sections`, applied to
`parts[1:]`: consumes (matched header, following body) pairs. -/
def sectionsLoop : List (List Char) → List Section
  | [] => []
  | [m] =>
      [⟨if m = [] then UNLABELED else toUpperL (strip m), []⟩]
  | m :: b :: rest =>
      ⟨if m = [] then UNLABELED else toUpperL (strip m), strip b⟩ :: sectionsLoop rest

/-- `split_into_sections(text)` from `rag_service.py` / `src/utils.py`. -/
def split_into_sections (text : List Char) : List Section :=
  if strip text = [] then
    [⟨UNLABELED, []⟩]
  else
    match reSplitParts text with
    | [] => [⟨UNLABELED, strip text⟩]
    | [_] => [⟨UNLABELED, strip text⟩]
    | p0 :: rest =>
        (if strip p0 = [] then [] else [⟨UNLABELED, strip p0⟩]) ++ sectionsLoop rest

/-! ## Chunk assembler -/

/-- One chunk record, as built by `prepare_chunks_from_text`. -/
structure Chunk where
  chunk_id : List Char
  text : List Char
  sectionLabel : List Char
  doc_id : Nat
  chunk_num : Nat
deriving DecidableEq, Repr

/-- Python `str(n)` for a natural number: decimal digits. -/
def natDigs (n : Nat) : List Char :=
  if h : n < 10 then
    [Nat.digitChar n]
  else
    natDigs (n / 10) ++ [Nat.digitChar (n % 10)]
termination_by n
decreasing_by
  exact Nat.div_lt_self (by omega) (by omega)

/-- `f"{doc_id}_{header[:20]}_{chunk_seq}_{suffix}"`.  `suffix` stands for
`str(uuid.uuid4())[:8]`, supplied externally since it is random. -/
def mkChunkId (did : Nat) (header : List Char) (seq : Nat) (suffix : List Char) :
    List Char :=
  natDigs did ++ '_' :: header.take 20 ++ '_' :: natDigs seq ++ '_' :: suffix

/-- The inner `for i, c in enumerate(sec_chunks)` loop: one chunk per window,
`chunk_seq` increasing.  `rand k` is the random 8-char suffix drawn for the
chunk with sequence number `k`. -/
def emitChunks (rand : Nat → List Char) (did : Nat) (header : List Char) :
    List (List Char) → Nat → List Chunk
  | [], _ => []
  | t :: ts, seq =>
      ⟨mkChunkId did header seq (rand seq), t, header, did, seq⟩
        :: emitChunks rand did header ts (seq + 1)

/-- The outer `for sec in sections` loop of `prepare_chunks_from_text`. -/
def prepareGo (rand : Nat → List Char) (did : Nat) :
    List Section → Nat → List Chunk
  | [], _ => []
  | sec :: rest, seq =>
      let header := if sec.label = [] then UNLABELED else sec.label
      let body := if sec.body = [] then [] else sec.body
      let secChunks := chunk_text body 1500
      emitChunks rand did header secChunks seq
        ++ prepareGo rand did rest (seq + secChunks.length)

/-- The chunk the fallback branch appends: id `f"{doc_id}_UNLABELED_0"`,
text the original untrimmed input. -/
def fallbackChunk (did : Nat) (full_text : List Char) : Chunk :=
  ⟨natDigs did ++ '_' :: UNLABELED ++ ['_', '0'], full_text, UNLABELED, did, 0⟩

/-- `prepare_chunks_from_text(full_text, doc_id)` from `rag_service.py`. -/
def prepare_chunks_from_text (rand : Nat → List Char) (full_text : List Char)
    (did : Nat) : List Chunk :=
  let cs := prepareGo rand did (split_into_sections full_text) 0
  if cs = [] then [fallbackChunk did full_text] else cs

/-- The `chunk_id` shape the spec asserts for every chunk:
`{doc_id}_{section label truncated to 20 chars}_{chunk_num}_{random 8-char
suffix}`.  This is the spec's wording, stated as a definition so it can be
compared with what the code actually builds. -/
def chunkIdSpecForm (did : Nat) (c : Chunk) : Prop :=
  ∃ h r : List Char,
    c.chunk_id =
      natDigs did ++ '_' :: h.take 20 ++ '_' :: natDigs c.chunk_num ++ '_' :: r ∧
    r.length = 8

/-! ## Retriever

`retrieve_from_index` embeds the query, runs `index.search(q_emb, top_k)` and
materialises the hits.  The FAISS search is external; it is modelled by its
output: the list `zip(I[0], D[0])` of (index, score) pairs, over which the
Python loop runs.  Scores are modelled by an arbitrary linearly ordered type
instantiated with `Int` in concrete witnesses (the claims only use their
order). -/

/-- The materialisation loop of `retrieve_from_index`: skip sentinel negative
indices, look the rest up in `id_map`, attach the score. -/
def retrieve_from_index (id_map : Nat → Chunk) (hits : List (Int × Int)) :
    List (Chunk × Int) :=
  hits.filterMap fun p =>
    if p.1 < 0 then none else some (id_map p.1.toNat, p.2)

/-- The contract of `faiss.IndexFlatIP.search` on an index holding `n` vectors,
asked for `k` neighbours: `k` hits, each either a valid distinct position
`< n` or the sentinel `-1`, scores non-increasing. -/
def searchContract (n k : Nat) (hits : List (Int × Int)) : Prop :=
  hits.length = k ∧
  (∀ p ∈ hits, (0 ≤ p.1 ∧ p.1 < (n : Int)) ∨ p.1 = -1) ∧
  ((hits.map Prod.fst).filter (fun i => 0 ≤ i)).Nodup ∧
  (hits.map Prod.snd).Pairwise (· ≥ ·)

/-! ## Reasoning orchestrator (`analyze_clinical_note`)

The generation capability is out of scope (spec: an opaque function from
prompts to text), so `callLLM i payload` abstracts the `call_llm` call at
site `i` (1 = fact extraction, 2 = differential diagnosis, 3 = SOAP note)
applied to the pipeline-dependent part of its user prompt (`context`,
`step1_output`, `context` respectively); the query embedding and FAISS search
are abstracted by their output `hits` as in `retrieve_from_index`.
`json.loads` is abstracted by `parseJson`, returning either a parsed value or
the exception text. -/

/-- `f"[{r['chunk_id']}][{r['section']}]: {r['text']}"` joined with
`"\n\n"`. -/
def contextOf (retrieved : List (Chunk × Int)) : List Char :=
  List.intercalate "\n\n".toList
    (retrieved.map fun r =>
      '[' :: r.1.chunk_id ++ ']' :: '[' :: r.1.sectionLabel
        ++ ']' :: ':' :: ' ' :: r.1.text)

/-- The hard-coded `step2_output` used when `llm_mode == "colab_t4"`. -/
def t4SkipOutput : List Char :=
  ("[\n            \x7b\n                \"diagnosis\": \"Differential Diagnosis (Skipped for T4)\",\n                \"confidence\": \"Low\",\n                \"rationale\": \"Complex reasoning step skipped for optimization on T4 instance as per configuration.\",\n                \"evidence\": [],\n                \"workup\": \"N/A\",\n                \"red_flags\": \"N/A\"\n            \x7d\n        ]").toList

/-- The dictionary returned by `analyze_clinical_note` (the fields the claims
are about; `processing_time` is wall-clock and left out). -/
structure AnalyzeResult (J : Type) where
  soap : List Char
  step1_facts : List Char
  step2_ddx_raw : List Char
  ddx : Option J
  ddx_parse_error : Option (List Char)
  retrieved_chunks : List (Chunk × Int)
  all_chunks : List Chunk

/-- `analyze_clinical_note(full_text, llm_mode, top_k, ...)`: chunk, index,
retrieve, three generation calls, then `json.loads(step2_output)` inside
`try/except` with the parse error recorded rather than raised. -/
def analyze_clinical_note (J : Type)
    (parseJson : List Char → Except (List Char) J)
    (callLLM : Nat → List Char → List Char)
    (rand : Nat → List Char) (hits : List (Int × Int))
    (llm_mode full_text : List Char) : AnalyzeResult J :=
  let chunks := prepare_chunks_from_text rand full_text 0
  let id_map := fun i => chunks.getD i (fallbackChunk 0 [])
  let retrieved := retrieve_from_index id_map hits
  let context := contextOf retrieved
  let step1_output := callLLM 1 context
  let step2_output :=
    if llm_mode = "colab_t4".toList then t4SkipOutput else callLLM 2 step1_output
  let soap_output := callLLM 3 context
  match parseJson step2_output with
  | .ok j =>
      ⟨soap_output, step1_output, step2_output, some j, none, retrieved, chunks⟩
  | .error e =>
      ⟨soap_output, step1_output, step2_output, none, some e, retrieved, chunks⟩

/-! ## Helper lemmas -/

theorem strip_length_le (s : List Char) : (strip s).length ≤ s.length := by
  unfold strip
  calc ((s.dropWhile pyIsSpace).reverse.dropWhile pyIsSpace).reverse.length
      = ((s.dropWhile pyIsSpace).reverse.dropWhile pyIsSpace).length := by
        exact List.length_reverse _
    _ ≤ (s.dropWhile pyIsSpace).reverse.length := (List.dropWhile_sublist _).length_le
    _ = (s.dropWhile pyIsSpace).length := List.length_reverse _
    _ ≤ s.length := (List.dropWhile_sublist _).length_le

theorem mem_of_mem_dropWhile {p : Char → Bool} {s : List Char} {a : Char}
    (h : a ∈ s.dropWhile p) : a ∈ s := by
  induction s with
  | nil => simp at h
  | cons c t ih =>
      by_cases hc : p c
      · simp only [List.dropWhile_cons, hc] at h
        exact List.mem_cons_of_mem _ (ih (by simpa using h))
      · simp only [List.dropWhile_cons, hc] at h
        simpa using h

theorem mem_of_mem_strip {s : List Char} {a : Char} (h : a ∈ strip s) : a ∈ s := by
  unfold strip at h
  rw [List.mem_reverse] at h
  have h2 := mem_of_mem_dropWhile h
  rw [List.mem_reverse] at h2
  exact mem_of_mem_dropWhile h2

/-- The windows of `chunkGo` are the strippings of consecutive raw slices of
`t` that concatenate to `t.drop start`, and each window fits in `maxc`. -/
theorem chunkGo_spec (maxc : Nat) (hm : 0 < maxc) (t : List Char) :
    ∀ fuel start, t.length - start ≤ fuel →
      ∃ raws : List (List Char),
        raws.flatten = t.drop start ∧
        chunkGo maxc t start = raws.map strip ∧
        ∀ w ∈ chunkGo maxc t start, w.length ≤ maxc := by
  intro fuel
  induction fuel with
  | zero =>
      intro start hf
      have hge : t.length ≤ start := by omega
      refine ⟨[], ?_, ?_, ?_⟩
      · simp [List.drop_eq_nil_of_le hge]
      · rw [chunkGo]; simp; omega
      · intro w hw
        rw [chunkGo] at hw
        simp at hw
        omega
  | succ fuel ih =>
      intro start hf
      by_cases hlt : start < t.length
      · have hcond : start < t.length ∧ 0 < maxc := ⟨hlt, hm⟩
        have hstep : chunkGo maxc t start =
            strip ((t.take (min (start + maxc) t.length)).drop start)
              :: chunkGo maxc t (min (start + maxc) t.length) := by
          rw [chunkGo]; simp [hcond]
        set stop := min (start + maxc) t.length with hstop
        have hlt2 : start < stop := lt_min (by omega) hlt
        have hle2 : stop ≤ t.length := min_le_right _ _
        obtain ⟨raws, hjoin, heq, hlen⟩ := ih stop (by omega)
        refine ⟨(t.take stop).drop start :: raws, ?_, ?_, ?_⟩
        · have h1 : (t.take stop).drop start = (t.drop start).take (stop - start) := by
            rw [List.drop_take]
          have h2 : (t.drop start).drop (stop - start) = t.drop stop := by
            rw [List.drop_drop]
            congr 1
            omega
          rw [List.flatten_cons, hjoin, h1, ← h2, List.take_append_drop]
        · rw [hstep, heq]; simp
        · intro w hw
          rw [hstep] at hw
          rcases List.mem_cons.mp hw with hw | hw
          · subst hw
            have : ((t.take stop).drop start).length ≤ maxc := by
              simp [List.length_drop, List.length_take]
              omega
            exact le_trans (strip_length_le _) this
          · exact hlen w hw
      · have hge : t.length ≤ start := by omega
        refine ⟨[], ?_, ?_, ?_⟩
        · simp [List.drop_eq_nil_of_le hge]
        · rw [chunkGo]; simp; omega
        · intro w hw
          rw [chunkGo] at hw
          simp at hw
          omega

/-! ## C5: chunk_text window soundness -/

/-- C5: For every text whose trimmed form is non-empty and every
`max_chars ≥ 1`, `chunk_text` returns windows each of length at most
`max_chars`, and the windows are exactly the boundary-trimmed forms of
consecutive raw slices whose concatenation is the trimmed original text
(i.e. the concatenation reproduces the input modulo the whitespace removed by
trimming the whole text and each window's boundaries). -/
theorem chunk_text_windows (text : List Char) (maxc : Nat) (hm : 1 ≤ maxc)
    (hne : strip text ≠ []) :
    ∃ raws : List (List Char),
      raws.flatten = strip text ∧
      chunk_text text maxc = raws.map strip ∧
      raws ≠ [] ∧
      ∀ w ∈ chunk_text text maxc, w.length ≤ maxc := by
  obtain ⟨raws, hjoin, heq, hlen⟩ :=
    chunkGo_spec maxc (by omega) (strip text) (strip text).length 0 (by omega)
  rw [List.drop_zero] at hjoin
  refine ⟨raws, hjoin, heq, ?_, hlen⟩
  intro hnil
  rw [hnil] at hjoin
  exact hne (by simpa using hjoin.symm)

/-- Witness for C5 at `text = "ab cd"`, `max_chars = 3`. -/
theorem chunk_text_windows_witness :
    1 ≤ 3 ∧ strip "ab cd".toList ≠ [] ∧
      ∃ raws : List (List Char),
        raws.flatten = strip "ab cd".toList ∧
        chunk_text "ab cd".toList 3 = raws.map strip ∧
        raws ≠ [] ∧
        ∀ w ∈ chunk_text "ab cd".toList 3, w.length ≤ 3 :=
  ⟨by omega, by decide, chunk_text_windows "ab cd".toList 3 (by omega) (by decide)⟩

/-! ## C8: chunk_text termination -/

/-- C8 counterexample: on `text = "a"` with `max_chars = 0` the loop
`while start < n: start = min(start + max_chars, n)` of `chunk_text` never
exits (`start` stays `0` forever), so `chunk_text` does not terminate for
every integer `max_chars`. -/
theorem chunk_text_termination_cex : ¬ chunkLoopTerminates ['a'] 0 := by
  rintro ⟨k, hk⟩
  have hs : strip ['a'] = ['a'] := by decide
  rw [hs] at hk
  have hk2 : (1 : Int) ≤ chunkLoopStart 0 1 k := by simpa using hk
  have hz : ∀ m, chunkLoopStart 0 1 m = 0 := by
    intro m
    induction m with
    | zero => rfl
    | succ m ih => simp [chunkLoopStart, ih]
  rw [hz k] at hk2
  exact absurd hk2 (by norm_num)

/-- C8 (amended): the `chunk_text` loop terminates whenever `max_chars ≥ 1`
(for any text), and also for arbitrary `max_chars` when the trimmed text is
empty; with `max_chars ≤ 0` and non-empty trimmed text the loop never
exits. -/
theorem chunk_text_terminates (text : List Char) (maxc : Int)
    (h : 1 ≤ maxc ∨ strip text = []) :
    chunkLoopTerminates text maxc := by
  rcases h with hm | he
  · have key : ∀ k : Nat, min (k : Int) ((strip text).length : Int) ≤
        chunkLoopStart maxc ((strip text).length) k := by
      intro k
      induction k with
      | zero => simp [chunkLoopStart]
      | succ k ih =>
          simp only [chunkLoopStart]
          push_cast
          omega
    refine ⟨(strip text).length, ?_⟩
    have := key (strip text).length
    omega
  · exact ⟨0, by simp [he, chunkLoopStart]⟩

/-- Witness for C8 (amended) at `text = "ab"`, `max_chars = 2`. -/
theorem chunk_text_terminates_witness :
    ((1 : Int) ≤ 2 ∨ strip "ab".toList = []) ∧ chunkLoopTerminates "ab".toList 2 :=
  ⟨Or.inl (by omega), chunk_text_terminates "ab".toList 2 (Or.inl (by omega))⟩

/-! ## C6: fallback chunk for empty / whitespace-only documents -/

/-- C6: for every document that is empty or whitespace-only,
`prepare_chunks_from_text` returns exactly one chunk: `chunk_num = 0`,
section `UNLABELED`, text the original untrimmed input. -/
theorem prepare_chunks_empty (rand : Nat → List Char) (full_text : List Char)
    (did : Nat) (h : strip full_text = []) :
    prepare_chunks_from_text rand full_text did = [fallbackChunk did full_text] := by
  have h1 : split_into_sections full_text = [⟨UNLABELED, []⟩] := by
    rw [split_into_sections, if_pos h]
  rw [prepare_chunks_from_text, h1]
  have h2 : chunk_text ([] : List Char) 1500 = [] := by
    rw [chunk_text, chunkGo]
    simp [strip]
  have hu : UNLABELED ≠ [] := by decide
  simp [prepareGo, h2, emitChunks, hu]

/-- Witness for C6 at `full_text = "  "` (whitespace-only, text preserved). -/
theorem prepare_chunks_empty_witness :
    strip "  ".toList = [] ∧
      prepare_chunks_from_text (fun _ => []) "  ".toList 0 =
        [fallbackChunk 0 "  ".toList] :=
  ⟨by decide, prepare_chunks_empty (fun _ => []) "  ".toList 0 (by decide)⟩

/-! ## C7: documents with no header match -/

/-- C7: if no header regular expression matches anywhere in the text,
`split_into_sections` returns exactly one `UNLABELED` section whose body is
the trimmed input. -/
theorem split_no_match (text : List Char) (h : findMatch text = none) :
    split_into_sections text = [⟨UNLABELED, strip text⟩] := by
  by_cases hs : strip text = []
  · rw [split_into_sections, if_pos hs, hs]
  · have hp : reSplitParts text = [text] := by
      rw [reSplitParts]
      cases hn : text.length with
      | zero => rfl
      | succ n => rw [reSplitGo, h]
    rw [split_into_sections, if_neg hs, hp]

/-- Witness for C7 at `text = "hello world"` (no header occurs in it). -/
theorem split_no_match_witness :
    findMatch "hello world".toList = none ∧
      split_into_sections "hello world".toList =
        [⟨UNLABELED, strip "hello world".toList⟩] :=
  ⟨by decide, split_no_match "hello world".toList (by decide)⟩

/-! ## Upper-case section labels (C10) -/

theorem pyToUpper_image (c : Char) :
    pyToUpper c = c ∨ pyToUpper c ∈ "ABCDEFGHIJKLMNOPQRSTUVWXYZ".toList := by
  unfold pyToUpper
  split <;> first | (left; rfl) | (right; decide)

theorem pyToUpper_idem (c : Char) : pyToUpper (pyToUpper c) = pyToUpper c := by
  rcases pyToUpper_image c with h | h
  · rw [h]; exact h
  · exact (by decide :
      ∀ d ∈ "ABCDEFGHIJKLMNOPQRSTUVWXYZ".toList, pyToUpper d = d) _ h

theorem pyToUpper_eq_underscore {c : Char} (h : pyToUpper c = '_') : c = '_' := by
  rcases pyToUpper_image c with h2 | h2
  · rw [← h2, h]
  · rw [h] at h2
    exact absurd h2 (by decide)

theorem toUpperL_idem (l : List Char) : toUpperL (toUpperL l) = toUpperL l := by
  simp only [toUpperL, List.map_map]
  exact List.map_congr_left (fun a _ => pyToUpper_idem a)

theorem not_underscore_toUpperL {l : List Char} (h : '_' ∉ l) : '_' ∉ toUpperL l := by
  intro hm
  simp only [toUpperL, List.mem_map] at hm
  obtain ⟨c, hc, hcu⟩ := hm
  rw [pyToUpper_eq_underscore hcu] at hc
  exact h hc

theorem unlabeled_upper : toUpperL UNLABELED = UNLABELED := by decide

theorem sectionsLoop_label_upper :
    ∀ parts, ∀ s ∈ sectionsLoop parts, toUpperL s.label = s.label
  | [] => by simp [sectionsLoop]
  | [m] => by
      intro s hs
      simp only [sectionsLoop, List.mem_singleton] at hs
      subst hs
      by_cases h : m = [] <;> simp [h, unlabeled_upper, toUpperL_idem]
  | m :: b :: rest => by
      intro s hs
      simp only [sectionsLoop, List.mem_cons] at hs
      rcases hs with rfl | hs
      · by_cases h : m = [] <;> simp [h, unlabeled_upper, toUpperL_idem]
      · exact sectionsLoop_label_upper rest s hs

theorem split_label_upper (text : List Char) :
    ∀ s ∈ split_into_sections text, toUpperL s.label = s.label := by
  intro s hs
  rw [split_into_sections] at hs
  by_cases h0 : strip text = []
  · rw [if_pos h0] at hs
    simp at hs
    rw [hs]
    exact unlabeled_upper
  · rw [if_neg h0] at hs
    rcases hr : reSplitParts text with _ | ⟨p0, _ | ⟨p1, rest⟩⟩ <;> rw [hr] at hs
    · simp at hs; rw [hs]; exact unlabeled_upper
    · simp at hs; rw [hs]; exact unlabeled_upper
    · rw [List.mem_append] at hs
      rcases hs with hs | hs
      · by_cases hp : strip p0 = []
        · rw [if_pos hp] at hs; simp at hs
        · rw [if_neg hp] at hs
          simp at hs
          rw [hs]
          exact unlabeled_upper
      · exact sectionsLoop_label_upper _ s hs

/-! ## Structure of the chunks built by `prepareGo` -/

theorem emitChunks_mem (rand : Nat → List Char) (did : Nat) (header : List Char) :
    ∀ ts seq c, c ∈ emitChunks rand did header ts seq →
      c.chunk_id = mkChunkId did header c.chunk_num (rand c.chunk_num) ∧
      c.sectionLabel = header ∧ c.doc_id = did ∧
      seq ≤ c.chunk_num ∧ c.chunk_num < seq + ts.length
  | [], seq, c => by simp [emitChunks]
  | t :: ts, seq, c => by
      intro hc
      simp only [emitChunks, List.mem_cons] at hc
      rcases hc with rfl | hc
      · refine ⟨rfl, rfl, rfl, le_refl _, ?_⟩
        simp
      · obtain ⟨h1, h2, h3, h4, h5⟩ := emitChunks_mem rand did header ts (seq + 1) c hc
        refine ⟨h1, h2, h3, by omega, by simp; omega⟩

theorem emitChunks_map_num (rand : Nat → List Char) (did : Nat) (header : List Char) :
    ∀ ts seq, (emitChunks rand did header ts seq).map Chunk.chunk_num =
      List.range' seq ts.length
  | [], seq => by simp [emitChunks]
  | t :: ts, seq => by
      simp only [emitChunks, List.map_cons, List.length_cons, List.range'_succ]
      rw [emitChunks_map_num rand did header ts (seq + 1)]

theorem emitChunks_length (rand : Nat → List Char) (did : Nat) (header : List Char)
    (ts : List (List Char)) (seq : Nat) :
    (emitChunks rand did header ts seq).length = ts.length := by
  have := congrArg List.length (emitChunks_map_num rand did header ts seq)
  simpa using this

theorem range'_append_consec (s m n : Nat) :
    List.range' s m ++ List.range' (s + m) n = List.range' s (m + n) := by
  have := List.range'_append s m n 1
  rw [Nat.add_comm n m] at this
  simpa using this

theorem prepareGo_map_num (rand : Nat → List Char) (did : Nat) :
    ∀ secs seq, (prepareGo rand did secs seq).map Chunk.chunk_num =
      List.range' seq (prepareGo rand did secs seq).length
  | [], seq => by simp [prepareGo]
  | sec :: rest, seq => by
      simp only [prepareGo, List.map_append, List.length_append]
      rw [emitChunks_map_num, emitChunks_length,
        prepareGo_map_num rand did rest (seq + (chunk_text (if sec.body = [] then [] else sec.body) 1500).length),
        range'_append_consec]

theorem prepareGo_mem (rand : Nat → List Char) (did : Nat) :
    ∀ secs seq c, c ∈ prepareGo rand did secs seq →
      ∃ header, (header = UNLABELED ∨ ∃ sec ∈ secs, header = sec.label) ∧
        c.chunk_id = mkChunkId did header c.chunk_num (rand c.chunk_num) ∧
        c.sectionLabel = header ∧ c.doc_id = did
  | [], seq, c => by simp [prepareGo]
  | sec :: rest, seq, c => by
      intro hc
      simp only [prepareGo, List.mem_append] at hc
      rcases hc with hc | hc
      · obtain ⟨h1, h2, h3, _, _⟩ := emitChunks_mem rand did _ _ _ c hc
        by_cases hl : sec.label = []
        · exact ⟨UNLABELED, Or.inl rfl, by rwa [if_pos hl] at h1,
            by rwa [if_pos hl] at h2, h3⟩
        · exact ⟨sec.label, Or.inr ⟨sec, List.mem_cons_self _ _, rfl⟩,
            by rwa [if_neg hl] at h1, by rwa [if_neg hl] at h2, h3⟩
      · obtain ⟨header, hh, h1, h2, h3⟩ := prepareGo_mem rand did rest _ c hc
        refine ⟨header, ?_, h1, h2, h3⟩
        rcases hh with hh | ⟨s2, hs2, hh⟩
        · exact Or.inl hh
        · exact Or.inr ⟨s2, List.mem_cons_of_mem _ hs2, hh⟩

/-- C10: every section label produced by `split_into_sections` is fully
upper-case (`UNLABELED` or the matched header trimmed and upper-cased), and
so are the `section` fields of the chunks built from them and the truncated
section component `header[:20]` that `prepare_chunks_from_text` embeds in
each `chunk_id`. -/
theorem section_labels_upper (text : List Char) (rand : Nat → List Char) (did : Nat) :
    (∀ s ∈ split_into_sections text, toUpperL s.label = s.label) ∧
    (∀ c ∈ prepare_chunks_from_text rand text did,
       toUpperL c.sectionLabel = c.sectionLabel ∧
       toUpperL (c.sectionLabel.take 20) = c.sectionLabel.take 20) := by
  refine ⟨split_label_upper text, ?_⟩
  intro c hc
  have hup : toUpperL c.sectionLabel = c.sectionLabel := by
    rw [prepare_chunks_from_text] at hc
    by_cases he : prepareGo rand did (split_into_sections text) 0 = []
    · rw [if_pos he] at hc
      simp at hc
      rw [hc]
      exact unlabeled_upper
    · rw [if_neg he] at hc
      obtain ⟨header, hh, _, h2, _⟩ := prepareGo_mem rand did _ _ c hc
      rw [h2]
      rcases hh with rfl | ⟨sec, hsec, rfl⟩
      · exact unlabeled_upper
      · exact split_label_upper text sec hsec
  refine ⟨hup, ?_⟩
  calc toUpperL (c.sectionLabel.take 20)
      = (toUpperL c.sectionLabel).take 20 := by
        simp [toUpperL, List.map_take]
    _ = c.sectionLabel.take 20 := by rw [hup]

/-! ## No-underscore facts about matches, labels and decimal digits -/

theorem litMatch_sound :
    ∀ (h s co r : List Char), litMatch h s = some (co, r) →
      s = co ++ r ∧ (∀ c ∈ co, pyToUpper c ∈ h) ∧ co.length = h.length
  | [], s, co, r => by
      intro hm
      simp only [litMatch, Option.some.injEq, Prod.mk.injEq] at hm
      obtain ⟨h1, h2⟩ := hm
      subst h1
      subst h2
      simp
  | a :: h, [], co, r => by
      intro hm
      simp [litMatch] at hm
  | a :: h, c :: s, co, r => by
      intro hm
      simp only [litMatch] at hm
      by_cases hca : pyToUpper c = a
      · rw [if_pos hca] at hm
        cases hlm : litMatch h s with
        | none => rw [hlm] at hm; simp at hm
        | some pr =>
            rw [hlm] at hm
            simp at hm
            obtain ⟨hco, hr⟩ := hm
            obtain ⟨h1, h2, h3⟩ := litMatch_sound h s pr.1 pr.2 (by rw [hlm])
            subst hco
            subst hr
            refine ⟨by rw [h1]; rfl, ?_, by simp [h3]⟩
            intro d hd
            rcases List.mem_cons.mp hd with rfl | hd
            · exact List.mem_cons.mpr (Or.inl hca)
            · exact List.mem_cons.mpr (Or.inr (h2 d hd))
      · rw [if_neg hca] at hm
        simp at hm

theorem consumeTail_sound :
    ∀ s : List Char, s = (consumeTail s).1 ++ (consumeTail s).2 ∧
      ∀ c ∈ (consumeTail s).1, c = ':' ∨ pyIsSpace c
  | [] => by simp [consumeTail]
  | c :: s => by
      by_cases hc : c = ':' ∨ pyIsSpace c
      · obtain ⟨ih1, ih2⟩ := consumeTail_sound s
        simp only [consumeTail, if_pos hc]
        constructor
        · rw [List.cons_append, ← ih1]
        · intro d hd
          rcases List.mem_cons.mp hd with rfl | hd
          · exact hc
          · exact ih2 d hd
      · simp [consumeTail, if_neg hc]

theorem matchHereGo_sound :
    ∀ (hs : List (List Char)) (s m r : List Char),
      (∀ h ∈ hs, h ≠ [] ∧ '_' ∉ h) → matchHereGo hs s = some (m, r) →
      s = m ++ r ∧ m ≠ [] ∧ '_' ∉ m
  | [], s, m, r => by intro _ hm; simp [matchHereGo] at hm
  | h :: hs, s, m, r => by
      intro hok hm
      simp only [matchHereGo] at hm
      cases hlm : litMatch h s with
      | none =>
          rw [hlm] at hm
          exact matchHereGo_sound hs s m r
            (fun h2 hh2 => hok h2 (List.mem_cons_of_mem _ hh2)) hm
      | some pr =>
          rw [hlm] at hm
          simp only [Option.some.injEq, Prod.mk.injEq] at hm
          obtain ⟨hs1, hs2, hs3⟩ := litMatch_sound h s pr.1 pr.2 hlm
          obtain ⟨ht1, ht2⟩ := consumeTail_sound pr.2
          obtain ⟨hne, hnu⟩ := hok h (List.mem_cons_self _ _)
          set c1 := (consumeTail pr.2).1 with hc1
          set c2 := (consumeTail pr.2).2 with hc2
          obtain ⟨hm1, hm2⟩ := hm
          refine ⟨?_, ?_, ?_⟩
          · rw [hs1, ← hm1, ← hm2, ht1, List.append_assoc]
          · intro habs
            have hz : pr.1 ++ c1 = [] := by rw [hm1, habs]
            have hp1 : pr.1 = [] := (List.append_eq_nil.mp hz).1
            rw [hp1] at hs3
            exact hne (List.length_eq_zero.mp hs3.symm)
          · intro habs
            rw [← hm1, List.mem_append] at habs
            rcases habs with habs | habs
            · have := hs2 _ habs
              rw [show pyToUpper '_' = '_' from rfl] at this
              exact hnu this
            · rcases ht2 _ habs with h1 | h1
              · exact absurd h1 (by decide)
              · exact absurd h1 (by decide)

theorem headerLits_ok : ∀ h ∈ headerLits, h ≠ [] ∧ '_' ∉ h := by decide

theorem matchHere_sound {s m r : List Char} (hm : matchHere s = some (m, r)) :
    s = m ++ r ∧ m ≠ [] ∧ '_' ∉ m :=
  matchHereGo_sound headerLits s m r headerLits_ok hm

theorem findMatch_sound :
    ∀ (t p m r : List Char), findMatch t = some (p, m, r) →
      t = p ++ m ++ r ∧ m ≠ [] ∧ '_' ∉ m
  | [], p, m, r => by intro hm; simp [findMatch] at hm
  | c :: rest, p, m, r => by
      intro hm
      simp only [findMatch] at hm
      cases hmh : matchHere (c :: rest) with
      | some pr =>
          rw [hmh] at hm
          simp only [Option.some.injEq, Prod.mk.injEq] at hm
          obtain ⟨h1, h2, h3⟩ := matchHere_sound (s := c :: rest) hmh
          obtain ⟨hp, hm1, hr⟩ := hm
          rw [← hp, ← hm1, ← hr]
          exact ⟨by simpa using h1, h2, h3⟩
      | none =>
          rw [hmh] at hm
          cases hfm : findMatch rest with
          | none => rw [hfm] at hm; simp at hm
          | some pr =>
              rw [hfm] at hm
              simp only [Option.map_some', Option.some.injEq, Prod.mk.injEq] at hm
              obtain ⟨h1, h2, h3⟩ := findMatch_sound rest pr.1 pr.2.1 pr.2.2 hfm
              obtain ⟨hp, hm1, hr⟩ := hm
              rw [← hp, ← hm1, ← hr]
              refine ⟨?_, h2, h3⟩
              rw [List.cons_append, List.cons_append, h1]

theorem reSplitGo_ne_nil : ∀ (fuel : Nat) (t : List Char), reSplitGo fuel t ≠ []
  | 0, t => by simp [reSplitGo]
  | fuel + 1, t => by
      simp only [reSplitGo]
      cases findMatch t with
      | none => simp
      | some pr => simp

theorem sectionsLoop_reSplit_noU :
    ∀ (fuel : Nat) (t p0 : List Char) (rest : List (List Char)),
      reSplitGo fuel t = p0 :: rest → ∀ s ∈ sectionsLoop rest, '_' ∉ s.label
  | 0, t, p0, rest => by
      intro heq s hs
      simp only [reSplitGo, List.cons.injEq] at heq
      rw [← heq.2] at hs
      simp [sectionsLoop] at hs
  | fuel + 1, t, p0, rest => by
      intro heq s hs
      simp only [reSplitGo] at heq
      cases hfm : findMatch t with
      | none =>
          rw [hfm] at heq
          simp only [List.cons.injEq] at heq
          rw [← heq.2] at hs
          simp [sectionsLoop] at hs
      | some pr =>
          rw [hfm] at heq
          simp at heq
          obtain ⟨hp0, hrest⟩ := heq
          obtain ⟨_, hmne, hmnu⟩ := findMatch_sound t pr.1 pr.2.1 pr.2.2 hfm
          cases hgo : reSplitGo fuel pr.2.2 with
          | nil => exact absurd hgo (reSplitGo_ne_nil fuel pr.2.2)
          | cons p1 rest2 =>
              rw [hgo] at hrest
              rw [← hrest] at hs
              simp only [sectionsLoop, List.mem_cons] at hs
              rcases hs with rfl | hs
              · simp only [if_neg hmne]
                exact not_underscore_toUpperL (fun hm => hmnu (mem_of_mem_strip hm))
              · exact sectionsLoop_reSplit_noU fuel pr.2.2 p1 rest2 hgo s hs

theorem unlabeled_noU : '_' ∉ UNLABELED := by decide

theorem split_label_noU (text : List Char) :
    ∀ s ∈ split_into_sections text, '_' ∉ s.label := by
  intro s hs
  rw [split_into_sections] at hs
  by_cases h0 : strip text = []
  · rw [if_pos h0] at hs
    simp at hs
    rw [hs]
    exact unlabeled_noU
  · rw [if_neg h0] at hs
    rcases hr : reSplitParts text with _ | ⟨p0, _ | ⟨p1, rest⟩⟩ <;> rw [hr] at hs
    · simp at hs; rw [hs]; exact unlabeled_noU
    · simp at hs; rw [hs]; exact unlabeled_noU
    · rw [List.mem_append] at hs
      rcases hs with hs | hs
      · by_cases hp : strip p0 = []
        · rw [if_pos hp] at hs; simp at hs
        · rw [if_neg hp] at hs
          simp at hs
          rw [hs]
          exact unlabeled_noU
      · exact sectionsLoop_reSplit_noU text.length text p0 (p1 :: rest) hr s hs

theorem natDigs_lt {n : Nat} (h : n < 10) : natDigs n = [Nat.digitChar n] := by
  rw [natDigs, dif_pos h]

theorem natDigs_ge {n : Nat} (h : ¬ n < 10) :
    natDigs n = natDigs (n / 10) ++ [Nat.digitChar (n % 10)] := by
  conv_lhs => rw [natDigs]
  rw [dif_neg h]

theorem natDigs_ne_nil (n : Nat) : natDigs n ≠ [] := by
  by_cases h : n < 10
  · rw [natDigs_lt h]; simp
  · rw [natDigs_ge h]; simp

theorem natDigs_noU (n : Nat) : '_' ∉ natDigs n := by
  by_cases h : n < 10
  · rw [natDigs_lt h]
    have hd : ∀ m, m < 10 → Nat.digitChar m ≠ '_' := by decide
    simp
    exact fun habs => hd n h habs.symm
  · rw [natDigs_ge h]
    have ih := natDigs_noU (n / 10)
    intro hmem
    rcases List.mem_append.mp hmem with hm | hm
    · exact ih hm
    · have hd : ∀ m, m < 10 → Nat.digitChar m ≠ '_' := by decide
      exact hd _ (Nat.mod_lt _ (by omega)) (List.mem_singleton.mp hm).symm
termination_by n
decreasing_by omega

theorem natDigs_inj (m : Nat) : ∀ n, natDigs m = natDigs n → m = n := by
  intro n heq
  have hd : ∀ a, a < 10 → ∀ b, b < 10 → Nat.digitChar a = Nat.digitChar b → a = b := by
    decide
  by_cases hm : m < 10 <;> by_cases hn : n < 10
  · rw [natDigs_lt hm, natDigs_lt hn] at heq
    simp at heq
    exact hd m hm n hn heq
  · rw [natDigs_lt hm, natDigs_ge hn] at heq
    have hlen := congrArg List.length heq
    have hpos := List.length_pos.mpr (natDigs_ne_nil (n / 10))
    simp only [List.length_append, List.length_singleton] at hlen
    omega
  · rw [natDigs_ge hm, natDigs_lt hn] at heq
    have hlen := congrArg List.length heq
    have hpos := List.length_pos.mpr (natDigs_ne_nil (m / 10))
    simp only [List.length_append, List.length_singleton] at hlen
    omega
  · rw [natDigs_ge hm, natDigs_ge hn] at heq
    obtain ⟨h1, h2⟩ := List.append_inj' heq (by simp)
    have e1 : m / 10 = n / 10 := natDigs_inj (m / 10) (n / 10) h1
    simp at h2
    have e2 : m % 10 = n % 10 :=
      hd _ (Nat.mod_lt _ (by omega)) _ (Nat.mod_lt _ (by omega)) h2
    omega
termination_by m
decreasing_by omega

theorem append_underscore_inj :
    ∀ (a b x y : List Char), '_' ∉ a → '_' ∉ b →
      a ++ '_' :: x = b ++ '_' :: y → a = b ∧ x = y
  | [], [], x, y => by intro _ _ h; simpa using h
  | [], d :: b, x, y => by
      intro _ hb heq
      simp at heq
      exact absurd (List.mem_cons.mpr (Or.inl heq.1)) hb
  | c :: a, [], x, y => by
      intro ha _ heq
      simp at heq
      exact absurd (List.mem_cons.mpr (Or.inl heq.1.symm)) ha
  | c :: a, d :: b, x, y => by
      intro ha hb heq
      simp at heq
      obtain ⟨rfl, heq2⟩ := heq
      obtain ⟨h1, h2⟩ := append_underscore_inj a b x y
        (fun h => ha (List.mem_cons_of_mem _ h))
        (fun h => hb (List.mem_cons_of_mem _ h)) heq2
      exact ⟨by rw [h1], h2⟩

/-! ## C1: chunk count, dense chunk numbers, distinct chunk ids -/

/-- C1: for every document and doc id, `prepare_chunks_from_text` returns at
least one chunk, the `chunk_num` fields are the dense zero-based sequence
`0, 1, 2, ...` in output (document) order, and all `chunk_id` values are
pairwise distinct — whatever 8-character random suffixes are drawn. -/
theorem prepare_chunks_spec (rand : Nat → List Char) (full_text : List Char)
    (did : Nat) :
    prepare_chunks_from_text rand full_text did ≠ [] ∧
    (prepare_chunks_from_text rand full_text did).map Chunk.chunk_num =
      List.range (prepare_chunks_from_text rand full_text did).length ∧
    ((prepare_chunks_from_text rand full_text did).map Chunk.chunk_id).Nodup := by
  by_cases he : prepareGo rand did (split_into_sections full_text) 0 = []
  · rw [prepare_chunks_from_text, if_pos he]
    exact ⟨by simp, rfl, by simp⟩
  · rw [prepare_chunks_from_text, if_neg he]
    refine ⟨he, ?_, ?_⟩
    · rw [prepareGo_map_num, List.range_eq_range']
    · have hnums :
          ((prepareGo rand did (split_into_sections full_text) 0).map
            Chunk.chunk_num).Pairwise (· ≠ ·) := by
        rw [prepareGo_map_num]
        exact List.nodup_range' _ _
      have hpair := List.pairwise_map.mp hnums
      show ((prepareGo rand did (split_into_sections full_text) 0).map
        Chunk.chunk_id).Pairwise (· ≠ ·)
      refine List.pairwise_map.mpr (hpair.imp_of_mem ?_)
      intro c1 c2 h1m h2m hneq heq
      apply hneq
      obtain ⟨hA, hAor, hAid, _, _⟩ := prepareGo_mem rand did _ _ c1 h1m
      obtain ⟨hB, hBor, hBid, _, _⟩ := prepareGo_mem rand did _ _ c2 h2m
      have hAnoU : '_' ∉ hA := by
        rcases hAor with rfl | ⟨sec, hsec2, rfl⟩
        · exact unlabeled_noU
        · exact split_label_noU full_text sec hsec2
      have hBnoU : '_' ∉ hB := by
        rcases hBor with rfl | ⟨sec, hsec2, rfl⟩
        · exact unlabeled_noU
        · exact split_label_noU full_text sec hsec2
      rw [hAid, hBid] at heq
      unfold mkChunkId at heq
      simp only [List.append_assoc, List.cons_append] at heq
      obtain ⟨-, heq2⟩ := append_underscore_inj _ _ _ _
        (natDigs_noU did) (natDigs_noU did) heq
      obtain ⟨-, heq3⟩ := append_underscore_inj _ _ _ _
        (fun hmem => hAnoU (List.mem_of_mem_take hmem))
        (fun hmem => hBnoU (List.mem_of_mem_take hmem)) heq2
      obtain ⟨heq4, -⟩ := append_underscore_inj _ _ _ _
        (natDigs_noU _) (natDigs_noU _) heq3
      exact natDigs_inj _ _ heq4

/-! ## C3: chunk_id format -/

/-- C3 counterexample: for the empty document the (only) chunk produced is
the fallback chunk, whose `chunk_id` is `f"{doc_id}_UNLABELED_0"` — three
underscore-joined components with no random 8-character suffix — so not every
chunk's id has the spec's four-component `..._{chunk_num}_{suffix}` shape. -/
theorem chunk_id_format_cex :
    prepare_chunks_from_text (fun _ => ['a', 'b', '1', '2', 'c', 'd', '3', '4'])
        [] 0 = [fallbackChunk 0 []] ∧
    ¬ chunkIdSpecForm 0 (fallbackChunk 0 []) := by
  constructor
  · have h1 : split_into_sections [] = [⟨UNLABELED, []⟩] := by
      rw [split_into_sections, if_pos (by decide)]
    rw [prepare_chunks_from_text, h1]
    have h2 : chunk_text ([] : List Char) 1500 = [] := by
      rw [chunk_text, chunkGo]
      simp [strip]
    have hu : UNLABELED ≠ [] := by decide
    simp [prepareGo, h2, emitChunks, hu]
  · rintro ⟨h, r, heq, hlen⟩
    have h0 : natDigs 0 = ['0'] := by
      rw [natDigs_lt (by omega)]
      decide
    have hU : UNLABELED = ['U', 'N', 'L', 'A', 'B', 'E', 'L', 'E', 'D'] := by decide
    simp only [fallbackChunk, h0, hU] at heq
    have hlen2 := congrArg List.length heq
    simp only [List.length_append, List.length_cons, List.length_nil,
      List.length_singleton, hlen, List.length_take] at hlen2
    have hz : h.take 20 = [] := by
      apply List.eq_nil_of_length_eq_zero
      simp only [List.length_take]
      omega
    rw [hz] at heq
    simp at heq

/-- C3 (amended): every chunk emitted from a section window has a `chunk_id`
of the spec's four-component form `{doc_id}_{label[:20]}_{chunk_num}_{8-char
suffix}`; the single fallback chunk (emitted only when no window exists)
instead has the three-component id `{doc_id}_UNLABELED_0` with no random
suffix. -/
theorem chunk_id_format (rand : Nat → List Char) (full_text : List Char)
    (did : Nat) (hr : ∀ k, (rand k).length = 8) :
    ∀ c ∈ prepare_chunks_from_text rand full_text did,
      chunkIdSpecForm did c ∨
      (c.chunk_id = natDigs did ++ '_' :: UNLABELED ++ ['_', '0'] ∧
        c.chunk_num = 0 ∧
        prepare_chunks_from_text rand full_text did = [c]) := by
  intro c hc
  rw [prepare_chunks_from_text] at hc
  by_cases he : prepareGo rand did (split_into_sections full_text) 0 = []
  · rw [if_pos he] at hc
    simp at hc
    right
    refine ⟨by rw [hc]; rfl, by rw [hc]; rfl, ?_⟩
    rw [prepare_chunks_from_text, if_pos he, hc]
  · rw [if_neg he] at hc
    left
    obtain ⟨header, _, hid, _, _⟩ := prepareGo_mem rand did _ _ c hc
    exact ⟨header, rand c.chunk_num, by rw [hid]; rfl, hr _⟩

/-- Witness for C3 (amended) at a suffix source of constant length 8 and the
document `"x"`. -/
theorem chunk_id_format_witness :
    (∀ k : Nat,
      ((fun _ => ['a', 'b', '1', '2', 'c', 'd', '3', '4'] : Nat → List Char) k).length = 8) ∧
    ∀ c ∈ prepare_chunks_from_text
        (fun _ => ['a', 'b', '1', '2', 'c', 'd', '3', '4']) ['x'] 0,
      chunkIdSpecForm 0 c ∨
      (c.chunk_id = natDigs 0 ++ '_' :: UNLABELED ++ ['_', '0'] ∧
        c.chunk_num = 0 ∧
        prepare_chunks_from_text
          (fun _ => ['a', 'b', '1', '2', 'c', 'd', '3', '4']) ['x'] 0 = [c]) :=
  ⟨fun _ => rfl,
    chunk_id_format (fun _ => ['a', 'b', '1', '2', 'c', 'd', '3', '4']) ['x'] 0
      (fun _ => rfl)⟩

/-! ## Retriever lemmas -/

theorem retrieve_from_index_eq (id_map : Nat → Chunk) (hits : List (Int × Int)) :
    retrieve_from_index id_map hits =
      (hits.filter (fun p => decide (0 ≤ p.1))).map
        (fun p => (id_map p.1.toNat, p.2)) := by
  induction hits with
  | nil => rfl
  | cons p t ih =>
      simp only [retrieve_from_index] at ih ⊢
      rw [List.filterMap_cons, List.filter_cons]
      by_cases hp : p.1 < 0
      · have h2 : ¬ (0 ≤ p.1) := by omega
        simp only [if_pos hp, h2, decide_False, Bool.false_eq_true, if_false]
        exact ih
      · have h2 : 0 ≤ p.1 := by omega
        simp only [if_neg hp, h2, decide_True, if_true, List.map_cons]
        rw [ih]

theorem nodup_nonneg_lt_length_le (n : Nat) (l : List Int) (hnd : l.Nodup)
    (hmem : ∀ i ∈ l, 0 ≤ i ∧ i < (n : Int)) : l.length ≤ n := by
  have hinj : ∀ a ∈ l, ∀ b ∈ l, a.toNat = b.toNat → a = b := by
    intro a ha b hb hab
    have h1 := (hmem a ha).1
    have h2 := (hmem b hb).1
    omega
  have hnd2 : (l.map Int.toNat).Nodup := List.Nodup.map_on hinj hnd
  have hsub : (l.map Int.toNat).toFinset ⊆ Finset.range n := by
    intro x hx
    simp only [List.mem_toFinset, List.mem_map] at hx
    obtain ⟨a, ha, rfl⟩ := hx
    have := hmem a ha
    simp only [Finset.mem_range]
    omega
  have hcard := Finset.card_le_card hsub
  rw [List.toFinset_card_of_nodup hnd2, Finset.card_range, List.length_map] at hcard
  exact hcard

theorem retrieve_valid_filter (n k : Nat) (id_map : Nat → Chunk)
    (hits : List (Int × Int)) (hc : searchContract n k hits) :
    (retrieve_from_index id_map hits).length =
      (hits.filter (fun p => decide (0 ≤ p.1))).length ∧
    (retrieve_from_index id_map hits).length ≤ n ∧
    ∀ x ∈ retrieve_from_index id_map hits,
      ∃ p ∈ hits, 0 ≤ p.1 ∧ p.1 < (n : Int) ∧ x = (id_map p.1.toNat, p.2) := by
  obtain ⟨hlen, hvalid, hnodup, hsorted⟩ := hc
  rw [retrieve_from_index_eq]
  have hmapW : (hits.filter (fun p => decide (0 ≤ p.1))).map Prod.fst =
      (hits.map Prod.fst).filter (fun i => decide (0 ≤ i)) :=
    (@List.filter_map (Int × Int) Int (fun i => decide (0 ≤ i)) Prod.fst hits).symm
  refine ⟨by rw [List.length_map], ?_, ?_⟩
  · rw [List.length_map]
    have hlenW : ((hits.filter (fun p => decide (0 ≤ p.1))).map Prod.fst).length ≤ n := by
      apply nodup_nonneg_lt_length_le n
      · rw [hmapW]; exact hnodup
      · intro i hi
        rw [hmapW, List.mem_filter] at hi
        obtain ⟨hi1, hi2⟩ := hi
        rw [List.mem_map] at hi1
        obtain ⟨p, hp, rfl⟩ := hi1
        rcases hvalid p hp with ⟨hge, hlt⟩ | hsent
        · exact ⟨hge, hlt⟩
        · simp only [decide_eq_true_eq] at hi2
          omega
    rw [List.length_map] at hlenW
    exact hlenW
  · intro x hx
    rw [List.mem_map] at hx
    obtain ⟨p, hpW, rfl⟩ := hx
    rw [List.mem_filter] at hpW
    obtain ⟨hp, hge⟩ := hpW
    simp only [decide_eq_true_eq] at hge
    rcases hvalid p hp with ⟨_, hlt⟩ | hsent
    · exact ⟨p, hp, hge, hlt, rfl⟩
    · omega

/-! ## C2: retrieval result cardinality, ordering, no padding -/

/-- C2: under the FAISS search contract (k hits over an index of n chunks,
distinct valid indices, sentinel `-1` entries, non-increasing scores),
`retrieve_from_index` returns at most `min k n` results ordered by
non-increasing score; sentinel hits are skipped (the result count equals the
number of valid hits) and every result is materialised from an actual valid
hit — never a placeholder. -/
theorem retrieve_spec (n k : Nat) (id_map : Nat → Chunk)
    (hits : List (Int × Int)) (hc : searchContract n k hits) :
    (retrieve_from_index id_map hits).length ≤ min k n ∧
    ((retrieve_from_index id_map hits).map Prod.snd).Pairwise (· ≥ ·) ∧
    (retrieve_from_index id_map hits).length =
      (hits.filter (fun p => decide (0 ≤ p.1))).length ∧
    ∀ x ∈ retrieve_from_index id_map hits,
      ∃ p ∈ hits, 0 ≤ p.1 ∧ p.1 < (n : Int) ∧ x = (id_map p.1.toNat, p.2) := by
  obtain ⟨hfl, hle, hmem⟩ := retrieve_valid_filter n k id_map hits hc
  obtain ⟨hlen, hvalid, hnodup, hsorted⟩ := hc
  refine ⟨?_, ?_, hfl, hmem⟩
  · apply le_min _ hle
    rw [hfl, ← hlen]
    exact List.length_filter_le _ _
  · rw [retrieve_from_index_eq, List.map_map]
    have hsub : List.Sublist
        ((hits.filter (fun p => decide (0 ≤ p.1))).map Prod.snd)
        (hits.map Prod.snd) :=
      (List.filter_sublist hits).map Prod.snd
    exact hsorted.sublist hsub

/-- Witness for C2: a 2-chunk index queried with `top_k = 3`; the underlying
search yields two valid hits and one sentinel. -/
theorem retrieve_spec_witness :
    searchContract 2 3 [(1, 9), (0, 5), (-1, -5)] ∧
    ((retrieve_from_index (fun i => fallbackChunk i []) [(1, 9), (0, 5), (-1, -5)]).length ≤ min 3 2 ∧
     ((retrieve_from_index (fun i => fallbackChunk i []) [(1, 9), (0, 5), (-1, -5)]).map Prod.snd).Pairwise (· ≥ ·) ∧
     (retrieve_from_index (fun i => fallbackChunk i []) [(1, 9), (0, 5), (-1, -5)]).length =
       (([(1, 9), (0, 5), (-1, -5)] : List (Int × Int)).filter (fun p => decide (0 ≤ p.1))).length ∧
     ∀ x ∈ retrieve_from_index (fun i => fallbackChunk i []) [(1, 9), (0, 5), (-1, -5)],
       ∃ p ∈ ([(1, 9), (0, 5), (-1, -5)] : List (Int × Int)),
         0 ≤ p.1 ∧ p.1 < ((2 : Nat) : Int) ∧ x = ((fun i => fallbackChunk i []) p.1.toNat, p.2)) :=
  ⟨⟨rfl, by decide, by decide, by decide⟩,
    retrieve_spec 2 3 (fun i => fallbackChunk i []) [(1, 9), (0, 5), (-1, -5)]
      ⟨rfl, by decide, by decide, by decide⟩⟩

/-! ## C4: no top_k validation -/

/-- C4 counterexample: a single-chunk index (N = 1) queried with
`top_k = 3 > N`.  No validation happens and no error is produced: the search
output (one valid hit, two sentinels) is processed normally and
`retrieve_from_index` returns a normal, non-empty result list. -/
theorem retrieve_no_validation_cex :
    searchContract 1 3 [(0, 7), (-1, -9), (-1, -9)] ∧
    retrieve_from_index (fun _ => fallbackChunk 0 []) [(0, 7), (-1, -9), (-1, -9)] =
      [(fallbackChunk 0 [], 7)] ∧
    retrieve_from_index (fun _ => fallbackChunk 0 []) [(0, 7), (-1, -9), (-1, -9)] ≠ [] := by
  refine ⟨⟨rfl, by decide, by decide, by decide⟩, rfl, by simp [retrieve_from_index]⟩

/-- C4 (amended): `retrieve_from_index` does not validate `top_k` against the
index size; when `top_k = k` exceeds the number `n` of indexed chunks the
search is still performed, its sentinel (negative-index) entries are skipped,
and a normal result list of at most `n` materialised hits is returned —
there is no error path. -/
theorem retrieve_oversized_topk (n k : Nat) (id_map : Nat → Chunk)
    (hits : List (Int × Int)) (hk : n < k) (hc : searchContract n k hits) :
    (retrieve_from_index id_map hits).length ≤ n ∧
    ∀ x ∈ retrieve_from_index id_map hits,
      ∃ p ∈ hits, 0 ≤ p.1 ∧ x = (id_map p.1.toNat, p.2) := by
  obtain ⟨-, hle, hmem⟩ := retrieve_valid_filter n k id_map hits hc
  refine ⟨hle, ?_⟩
  intro x hx
  obtain ⟨p, hp, hge, -, hx2⟩ := hmem x hx
  exact ⟨p, hp, hge, hx2⟩

/-- Witness for C4 (amended): `n = 1 < 3 = k`. -/
theorem retrieve_oversized_topk_witness :
    1 < 3 ∧ searchContract 1 3 [(0, 4), (-1, -8), (-1, -8)] ∧
    ((retrieve_from_index (fun i => fallbackChunk i []) [(0, 4), (-1, -8), (-1, -8)]).length ≤ 1 ∧
     ∀ x ∈ retrieve_from_index (fun i => fallbackChunk i []) [(0, 4), (-1, -8), (-1, -8)],
       ∃ p ∈ ([(0, 4), (-1, -8), (-1, -8)] : List (Int × Int)),
         0 ≤ p.1 ∧ x = ((fun i => fallbackChunk i []) p.1.toNat, p.2)) := by
  refine ⟨by omega, ⟨rfl, by decide, by decide, by decide⟩, ?_⟩
  exact retrieve_oversized_topk 1 3 (fun i => fallbackChunk i [])
    [(0, 4), (-1, -8), (-1, -8)] (by omega) ⟨rfl, by decide, by decide, by decide⟩

/-! ## C9: differential-diagnosis JSON parse boundary -/

/-- C9: `analyze_clinical_note` never propagates a JSON parse failure: the
returned record always carries the verbatim generation output in
`step2_ddx_raw`; when parsing fails, `ddx` is `none` and `ddx_parse_error`
holds the (non-null) error; when parsing succeeds, `ddx_parse_error` is
`none` and `ddx` holds the parsed value. -/
theorem analyze_parse_boundary (J : Type)
    (parseJson : List Char → Except (List Char) J)
    (callLLM : Nat → List Char → List Char) (rand : Nat → List Char)
    (hits : List (Int × Int)) (llm_mode full_text : List Char) :
    (analyze_clinical_note J parseJson callLLM rand hits llm_mode
        full_text).step2_ddx_raw =
      (if llm_mode = "colab_t4".toList then t4SkipOutput
       else callLLM 2 (analyze_clinical_note J parseJson callLLM rand hits
         llm_mode full_text).step1_facts) ∧
    (∀ e, parseJson (analyze_clinical_note J parseJson callLLM rand hits
          llm_mode full_text).step2_ddx_raw = .error e →
        (analyze_clinical_note J parseJson callLLM rand hits llm_mode
          full_text).ddx = none ∧
        (analyze_clinical_note J parseJson callLLM rand hits llm_mode
          full_text).ddx_parse_error = some e) ∧
    (∀ j, parseJson (analyze_clinical_note J parseJson callLLM rand hits
          llm_mode full_text).step2_ddx_raw = .ok j →
        (analyze_clinical_note J parseJson callLLM rand hits llm_mode
          full_text).ddx = some j ∧
        (analyze_clinical_note J parseJson callLLM rand hits llm_mode
          full_text).ddx_parse_error = none) := by
  unfold analyze_clinical_note
  dsimp only
  split <;> split <;> simp_all

end Rag
